import Mathlib

/-!
Verification development for the SystemVerilog Module Maker (MMMmain.py).

The Python source is shallowly embedded here.  Text is modelled as
`List Char` inside the parsing layer (Python strings are sequences of
characters) and as `String` in the netlist / generator layer.  The regular
expressions of the source are compiled by hand into character-level
scanners that reproduce the semantics of Python's `re` module on the
patterns actually used (lazy groups, optional groups, greedy classes,
left-to-right search with single-character advance on failure).
-/

/-- Python regex `\s` over ASCII text: space, tab, newline, carriage
return, vertical tab, form feed. -/
def isWs (c : Char) : Bool :=
  c == ' ' || c == '\t' || c == '\n' || c == '\r' || c.toNat == 11 || c.toNat == 12

/-- Python regex `\w` over ASCII text: letters, digits and underscore. -/
def isWordChar (c : Char) : Bool :=
  (97 ≤ c.toNat && c.toNat ≤ 122) || (65 ≤ c.toNat && c.toNat ≤ 90) ||
  (48 ≤ c.toNat && c.toNat ≤ 57) || c == '_'

/-- ASCII decimal digit, the model of Python's `str.isdigit` per character. -/
def isDigitChar (c : Char) : Bool := 48 ≤ c.toNat && c.toNat ≤ 57

/-- Python `str.strip()` on ASCII text: drop whitespace from both ends. -/
def pstrip (l : List Char) : List Char :=
  ((l.dropWhile isWs).reverse.dropWhile isWs).reverse

/-- Model of `re.sub(r'\s+', ' ', s)`: collapse every maximal whitespace run into a
single space.  The Boolean argument records whether the previous character
was whitespace (in which case the current run has already emitted its
space). -/
def collapseWsAux : Bool → List Char → List Char
  | _, [] => []
  | prevWs, c :: rest =>
    if isWs c then
      if prevWs then collapseWsAux true rest
      else ' ' :: collapseWsAux true rest
    else c :: collapseWsAux false rest

def collapseWs (l : List Char) : List Char := collapseWsAux false l

/-- Scan for the first `']'`; on success return the suffix after it.
Used to model the lazy pattern `\[.*?\]` (whose `.` does not match a
newline, hence the `'\n'` failure case). -/
def takeToRBracket : List Char → Option (List Char)
  | [] => none
  | c :: rest =>
    if c = ']' then some rest
    else if c = '\n' then none
    else takeToRBracket rest

/-- Model of the substitution in `SystemVerilogParser.extract_port_name`,
`re.sub(r'\[.*?\]', '', port_text)`: each non-overlapping `[...]` group
(up to the nearest following `']'`) is deleted; an unmatched `'['` is kept
and scanning resumes after it.  The `fuel` argument makes the recursion
structural so the kernel can evaluate it; `removeBrackets` supplies enough
fuel for the whole input (each step consumes at least one character). -/
def removeBracketsAux : Nat → List Char → List Char
  | 0, l => l
  | _ + 1, [] => []
  | fuel + 1, c :: rest =>
    if c = '[' then
      match takeToRBracket rest with
      | some after => removeBracketsAux fuel after
      | none => c :: removeBracketsAux fuel rest
    else c :: removeBracketsAux fuel rest

def removeBrackets (l : List Char) : List Char := removeBracketsAux l.length l

/-- Embeds `SystemVerilogParser.extract_port_name`: strip bracketed dimensions,
then trim whitespace. -/
def extract_port_name (port_text : List Char) : List Char :=
  pstrip (removeBrackets port_text)

/-- One flush step of `split_comma_list`: a chunk between top-level commas
becomes at most one port name. -/
def flushChunk (current : List Char) : List (List Char) :=
  let t := pstrip current
  if t = [] then []
  else
    let n := extract_port_name t
    if n = [] then [] else [n]

/-- Character loop of `SystemVerilogParser.split_comma_list`, tracking the
running chunk and the bracket depth (a Python `int`, so it may go
negative). -/
def splitCommaAux : List Char → Int → List Char → List (List Char)
  | _, _, [] => []
  | current, depth, c :: rest =>
    if c = '[' then splitCommaAux (current ++ [c]) (depth + 1) rest
    else if c = ']' then splitCommaAux (current ++ [c]) (depth - 1) rest
    else if c = ',' ∧ depth = 0 then
      flushChunk current ++ splitCommaAux [] 0 rest
    else splitCommaAux (current ++ [c]) depth rest

/-- Embeds `SystemVerilogParser.split_comma_list`: split on commas outside
brackets; a trailing comma is appended so the last chunk is flushed. -/
def split_comma_list (port_list : List Char) : List (List Char) :=
  splitCommaAux [] 0 (port_list ++ [','])

/-- If `kw` is a literal prefix of `s`, return the rest of `s`. -/
def dropPrefixQ : List Char → List Char → Option (List Char)
  | [], s => some s
  | _ :: _, [] => none
  | k :: kt, c :: ct => if c = k then dropPrefixQ kt ct else none

/-- Anchored match of `kw` followed by `\s+` (one or more whitespace
characters, matched greedily): on success return the suffix after the
whitespace run. -/
def matchKwWs (kw : List Char) (s : List Char) : Option (List Char) :=
  match dropPrefixQ kw s with
  | none => none
  | some r =>
    match r with
    | c :: _ => if isWs c then some (r.dropWhile isWs) else none
    | [] => none

/-- Model of `re.search(kw + r'\s+', s)` for a literal `kw`: try the anchored match
at every position, left to right; on success return the suffix after the
match. -/
def searchKw (kw : List Char) : List Char → Option (List Char)
  | [] => none
  | c :: rest =>
    match matchKwWs kw (c :: rest) with
    | some after => some after
    | none => searchKw kw rest

/-- Anchored `^(?:wire|reg|logic)\s+` of `parse_ansi_port_list`: skip a
net-type keyword and its trailing whitespace if present, else leave the
input unchanged. -/
def skipNetType (s : List Char) : List Char :=
  match matchKwWs "wire".data s with
  | some r => r
  | none =>
    match matchKwWs "reg".data s with
    | some r => r
    | none =>
      match matchKwWs "logic".data s with
      | some r => r
      | none => s

/-- Anchored `^\s*\[(.*?)\]\s*` of `parse_ansi_port_list`: an optional
leading-whitespace bracketed range.  On a match return the captured range
and the suffix after the trailing whitespace; on failure the cursor does
not move (the original input is returned with an empty range, matching
Python's `width = ""`). -/
def grabWidth (s : List Char) : List Char × List Char :=
  match s.dropWhile isWs with
  | '[' :: t =>
    let content := t.takeWhile (fun c => ¬ (c = ']' ∨ c = '\n'))
    (match t.drop content.length with
     | ']' :: r2 => (content, r2.dropWhile isWs)
     | _ => ([], s))
  | _ => ([], s)

/-- Pattern `^\s*(?:input|output|inout)\s+` used inside the group scan of
`parse_ansi_port_list` to detect the next direction keyword. -/
def dirKwAhead (s : List Char) : Bool :=
  let s1 := s.dropWhile isWs
  (matchKwWs "input".data s1).isSome || (matchKwWs "output".data s1).isSome ||
    (matchKwWs "inout".data s1).isSome

/-- The inner `while end_pos < len(...)` scan of `parse_ansi_port_list`:
walk forward tracking bracket depth (a Python `int`); stop at the first
position with depth 0 where a direction keyword lies ahead.  Returns the
scanned group text and the unconsumed suffix. -/
def scanGroup : Int → List Char → List Char × List Char
  | _, [] => ([], [])
  | d, c :: rest =>
    if c = '[' then
      let p := scanGroup (d + 1) rest
      (c :: p.1, p.2)
    else if c = ']' then
      let p := scanGroup (d - 1) rest
      (c :: p.1, p.2)
    else if d = 0 ∧ dirKwAhead (c :: rest) then ([], c :: rest)
    else
      let p := scanGroup d rest
      (c :: p.1, p.2)

/-- Group post-processing of `parse_ansi_port_list`: strip, drop one
trailing comma, split into names, and append the group's default range to
every name when the range is nonempty. -/
def processGroup (width : List Char) (g : List Char) : List (List Char) :=
  let pl := pstrip g
  let pl := if pl.getLast? = some ',' then pl.dropLast else pl
  let ports := split_comma_list pl
  if width ≠ [] then ports.map (fun p => p ++ '[' :: width ++ [']']) else ports

/-- The cursor loop of `SystemVerilogParser.parse_ansi_port_list`: each
iteration searches for `input\s+` first, then `output\s+`, then
`inout\s+`, anywhere in the unscanned suffix; processes one
direction group and continues after it.  Structural fuel (one unit per
iteration; every iteration consumes at least one character). -/
def ansiLoop : Nat → List Char → List (List Char) × List (List Char) × List (List Char)
  | 0, _ => ([], [], [])
  | fuel + 1, s =>
    match searchKw "input".data s with
    | some afterKw =>
      let wr := grabWidth (skipNetType afterKw)
      let gr := scanGroup 0 wr.2
      let rest := ansiLoop fuel gr.2
      (processGroup wr.1 gr.1 ++ rest.1, rest.2.1, rest.2.2)
    | none =>
      match searchKw "output".data s with
      | some afterKw =>
        let wr := grabWidth (skipNetType afterKw)
        let gr := scanGroup 0 wr.2
        let rest := ansiLoop fuel gr.2
        (rest.1, processGroup wr.1 gr.1 ++ rest.2.1, rest.2.2)
      | none =>
        match searchKw "inout".data s with
        | some afterKw =>
          let wr := grabWidth (skipNetType afterKw)
          let gr := scanGroup 0 wr.2
          let rest := ansiLoop fuel gr.2
          (rest.1, rest.2.1, processGroup wr.1 gr.1 ++ rest.2.2)
        | none => ([], [], [])

/-- Embeds `SystemVerilogParser.parse_ansi_port_list`: collapse whitespace, pad
with one space on each side, then run the cursor loop.  Returns
(inputs, outputs, inouts). -/
def parse_ansi_port_list (port_list_text : List Char) :
    List (List Char) × List (List Char) × List (List Char) :=
  let full := ' ' :: pstrip (collapseWs port_list_text) ++ [' ']
  ansiLoop (full.length + 1) full

/-- Scan for the first `')'` whose preceding run contains no parenthesis;
on success return the suffix after it.  Models one attempt of the pattern
`\([^()]*\)` after its opening `'('`. -/
def takeToRParen : List Char → Option (List Char)
  | [] => none
  | c :: rest =>
    if c = ')' then some rest
    else if c = '(' then none
    else takeToRParen rest

/-- Model of `re.sub(r'\([^()]*\)', '', s)` in `parse_port_list`: delete every
innermost parenthesis group, scanning left to right. -/
def removeParenGroupsAux : Nat → List Char → List Char
  | 0, l => l
  | _ + 1, [] => []
  | fuel + 1, c :: rest =>
    if c = '(' then
      match takeToRParen rest with
      | some after => removeParenGroupsAux fuel after
      | none => c :: removeParenGroupsAux fuel rest
    else c :: removeParenGroupsAux fuel rest

def removeParenGroups (l : List Char) : List Char := removeParenGroupsAux l.length l

/-- Embeds `SystemVerilogParser.parse_port_list` (non-ANSI style): collapse
whitespace, strip parameter-list parentheses, split on top-level commas. -/
def parse_port_list (port_list_text : List Char) : List (List Char) :=
  split_comma_list (removeParenGroups (pstrip (collapseWs port_list_text)))

/-- Candidate splits of the lazy group `(.*?)\]`: for every `']'` occurring
before the first newline, the content before it and the suffix after it,
in left-to-right (lazy preference) order. -/
def rbSplits : List Char → List (List Char × List Char)
  | [] => []
  | c :: rest =>
    if c = ']' then
      ([], rest) :: (rbSplits rest).map (fun p => (c :: p.1, p.2))
    else if c = '\n' then []
    else (rbSplits rest).map (fun p => (c :: p.1, p.2))

/-- Characters admitted by the class `[\w\s,]` of the body-declaration
patterns. -/
def inNamesClass (c : Char) : Bool := isWordChar c || isWs c || c == ','

/-- Tail `([\w\s,]+)\s*;` of the body-declaration patterns: the maximal
class run must be nonempty and be followed immediately by `';'` (the
backtracking of the greedy run and of `\s*` cannot produce any other
outcome).  Returns the captured run and the suffix after the
semicolon. -/
def namesThenSemi (s : List Char) : Option (List Char × List Char) :=
  let run := s.takeWhile inNamesClass
  if run = [] then none
  else
    match s.drop run.length with
    | ';' :: rest => some (run, rest)
    | _ => none

/-- Alternatives of `(?:wire|reg|logic)?` in preference order: the
keyword-consuming branch when one is a literal prefix, then the empty
branch. -/
def typeSplits (s : List Char) : List (List Char) :=
  (match dropPrefixQ "wire".data s with
   | some r => [r]
   | none =>
     match dropPrefixQ "reg".data s with
     | some r => [r]
     | none =>
       match dropPrefixQ "logic".data s with
       | some r => [r]
       | none => []) ++ [s]

/-- Alternatives of `\s*(?:\[(.*?)\])?` in preference order: if a `'['`
follows the whitespace, every lazy bracket split (captured range, suffix
after `']'`); then the range-absent branch, which leaves the cursor before
the whitespace (the names class contains whitespace, so the later parts of
the pattern see an equivalent position). -/
def widthCands (s1 : List Char) : List (List Char × List Char) :=
  (match s1.dropWhile isWs with
   | '[' :: t => rbSplits t
   | _ => []) ++ [([], s1)]

/-- Anchored match of the whole body-declaration pattern
`kw + r'\s+(?:wire|reg|logic)?\s*(?:\[(.*?)\])?\s*([\w\s,]+)\s*;'`
at the current position, with the regex engine's backtracking order over
the optional net type and the lazy optional range.  Returns
((captured range, captured names run), suffix after the match). -/
def declMatchAt (kw : List Char) (s : List Char) :
    Option ((List Char × List Char) × List Char) :=
  match matchKwWs kw s with
  | none => none
  | some afterKw =>
    (typeSplits afterKw).findSome? (fun s1 =>
      (widthCands s1).findSome? (fun wc =>
        match namesThenSemi wc.2 with
        | some (run, rest) => some ((wc.1, run), rest)
        | none => none))

/-- Model of `re.findall` for a body-declaration pattern: scan left to right,
trying the anchored match at each position; after a match continue at its
end.  Structural fuel (each step consumes at least one character). -/
def findAllDeclAux (kw : List Char) : Nat → List Char → List (List Char × List Char)
  | 0, _ => []
  | _ + 1, [] => []
  | fuel + 1, c :: rest =>
    match declMatchAt kw (c :: rest) with
    | some (pair, restAfter) => pair :: findAllDeclAux kw fuel restAfter
    | none => findAllDeclAux kw fuel rest

def findAllDecl (kw : List Char) (body : List Char) : List (List Char × List Char) :=
  findAllDeclAux kw body.length body

/-- Inner loop of `parse_module_body`: add each port of one declaration
block to the accumulated direction list if it appears in the module's
port list and is not already accumulated, suffixing the block's range when
nonempty. -/
def addPorts (port_names : List (List Char)) (width : List Char) :
    List (List Char) → List (List Char) → List (List Char)
  | [], acc => acc
  | p :: rest, acc =>
    addPorts port_names width rest
      (if p ∈ port_names ∧ p ∉ acc then
        acc ++ [if width ≠ [] then p ++ '[' :: width ++ [']'] else p]
      else acc)

/-- Outer loop of `parse_module_body` over the declaration blocks of one
direction. -/
def processBlocks (port_names : List (List Char)) :
    List (List Char × List Char) → List (List Char) → List (List Char)
  | [], acc => acc
  | (w, blk) :: rest, acc =>
    processBlocks port_names rest (addPorts port_names w (split_comma_list blk) acc)

/-- Embeds `SystemVerilogParser.parse_module_body`: extract the input, output and
inout declaration blocks of the module body and fold each direction's
blocks.  Returns (inputs, outputs, inouts). -/
def parse_module_body (module_body : List Char) (port_names : List (List Char)) :
    List (List Char) × List (List Char) × List (List Char) :=
  (processBlocks port_names (findAllDecl "input".data module_body) [],
   processBlocks port_names (findAllDecl "output".data module_body) [],
   processBlocks port_names (findAllDecl "inout".data module_body) [])

/-- First occurrence of a literal substring: returns (prefix before it,
suffix after it).  Models a lazy `(.*?)` followed by the literal. -/
def splitOnSubstr (pat : List Char) : List Char → Option (List Char × List Char)
  | [] => (match pat with | [] => some ([], []) | _ => none)
  | c :: rest =>
    match dropPrefixQ pat (c :: rest) with
    | some r => some ([], r)
    | none =>
      match splitOnSubstr pat rest with
      | some (a, b) => some (c :: a, b)
      | none => none

/-- Scan for the first newline; return the suffix after it. -/
def takeToNewline : List Char → Option (List Char)
  | [] => none
  | c :: rest => if c = '\n' then some rest else takeToNewline rest

/-- Model of `re.sub(r'//.*?\n', '\n', content)` in `parse_file`: each `//` up to
the next newline is replaced by a newline; a final `//` comment without a
newline is left in place (the lazy pattern cannot match). -/
def stripLineCommentsAux : Nat → List Char → List Char
  | 0, l => l
  | _ + 1, [] => []
  | fuel + 1, c :: rest =>
    match c, rest with
    | '/', '/' :: rest2 =>
      (match takeToNewline rest2 with
       | some after => '\n' :: stripLineCommentsAux fuel after
       | none => '/' :: stripLineCommentsAux fuel ('/' :: rest2))
    | _, _ => c :: stripLineCommentsAux fuel rest

def stripLineComments (l : List Char) : List Char := stripLineCommentsAux l.length l

/-- Model of the block-comment substitution (DOTALL) in `parse_file`:
each `/*` up to the nearest `*/` is deleted; an unterminated `/*` is left
in place. -/
def stripBlockCommentsAux : Nat → List Char → List Char
  | 0, l => l
  | _ + 1, [] => []
  | fuel + 1, c :: rest =>
    match c, rest with
    | '/', '*' :: rest2 =>
      (match splitOnSubstr "*/".data rest2 with
       | some (_, after) => stripBlockCommentsAux fuel after
       | none => '/' :: stripBlockCommentsAux fuel ('*' :: rest2))
    | _, _ => c :: stripBlockCommentsAux fuel rest

def stripBlockComments (l : List Char) : List Char := stripBlockCommentsAux l.length l

/-- Anchored match of the module pattern
`module\s+(\w+)\s*(?:#\s*\([^)]*\))?\s*\((.*?)\);(.*?)endmodule`
(DOTALL) at the current position.  Returns ((name, port-list text, body),
suffix after the match). -/
def moduleMatchAt (s : List Char) :
    Option ((List Char × List Char × List Char) × List Char) :=
  match matchKwWs "module".data s with
  | none => none
  | some afterKw =>
    let name := afterKw.takeWhile isWordChar
    if name = [] then none
    else
      let s1 := (afterKw.drop name.length).dropWhile isWs
      let s2 : Option (List Char) :=
        match s1 with
        | '#' :: t =>
          (match t.dropWhile isWs with
           | '(' :: t2 =>
             let content := t2.takeWhile (fun c => ¬ c = ')')
             (match t2.drop content.length with
              | ')' :: t3 => some (t3.dropWhile isWs)
              | _ => none)
           | _ => none)
        | _ => some s1
      match s2 with
      | none => none
      | some u =>
        match u with
        | '(' :: v =>
          (match splitOnSubstr ");".data v with
           | some (portText, afterPorts) =>
             (match splitOnSubstr "endmodule".data afterPorts with
              | some (body, restAfter) => some ((name, portText, body), restAfter)
              | none => none)
           | none => none)
        | _ => none

/-- Model of `re.finditer` for the module pattern: try the anchored match at every
position; after a match continue at its end. -/
def findModulesAux : Nat → List Char → List (List Char × List Char × List Char)
  | 0, _ => []
  | _ + 1, [] => []
  | fuel + 1, c :: rest =>
    match moduleMatchAt (c :: rest) with
    | some (m, restAfter) => m :: findModulesAux fuel restAfter
    | none => findModulesAux fuel rest

def findModules (content : List Char) : List (List Char × List Char × List Char) :=
  findModulesAux content.length content

/-- Per-module processing of `parse_file`: ANSI parse first; if it yields
no ports, fall back to the bare port list plus body declarations; then
default every still-unclassified port to an input; finally fold inouts
into outputs.  Returns (inputs, outputs-with-inouts). -/
def buildInterface (portText body : List Char) : List (List Char) × List (List Char) :=
  let a := parse_ansi_port_list portText
  let all := a.1 ++ a.2.1 ++ a.2.2
  let r :=
    if all = [] then
      let pn := parse_port_list portText
      let b := parse_module_body body pn
      (pn, b)
    else (all, a)
  let ins := r.1.foldl
    (fun acc p => if p ∉ acc ∧ p ∉ r.2.2.1 ∧ p ∉ r.2.2.2 then acc ++ [p] else acc)
    r.2.1
  (ins, r.2.2.1 ++ r.2.2.2)

/-- Python-dict assignment (store the interface under the module name): overwrite in place if the
key exists, else append. -/
def upsert (m : List (List Char × (List (List Char) × List (List Char))))
    (k : List Char) (v : List (List Char) × List (List Char)) :
    List (List Char × (List (List Char) × List (List Char))) :=
  if m.any (fun e => e.1 == k) then
    m.map (fun e => if e.1 = k then (k, v) else e)
  else m ++ [(k, v)]

/-- Body of `SystemVerilogParser.parse_file` after the file read: strip
comments, find the module spans, build each interface, store under the
module's name (last write wins). -/
def parseContent (content : List Char) :
    List (List Char × (List (List Char) × List (List Char))) :=
  let cleaned := stripBlockComments (stripLineComments content)
  (findModules cleaned).foldl
    (fun m t => upsert m t.1 (buildInterface t.2.1 t.2.2)) []

/-- Embeds `SystemVerilogParser.parse_file`: the whole body runs inside
`try ... except Exception`, and the file read precedes any accumulation,
so a read failure (modelled as the `Except.error` case) returns the empty
mapping, and no exception ever reaches the caller (the function is total
and its codomain carries no error). -/
def parse_file (readResult : Except (List Char) (List Char)) :
    List (List Char × (List (List Char) × List (List Char))) :=
  match readResult with
  | .error _ => []
  | .ok content => parseContent content

/-- Model of `re.search(r'(\w+)(?:\[([^\]]+)\])?', port)` in
`ModuleItem.parse_port_widths`: the first maximal word run is the name;
a directly following `[...]` with nonempty bracket-free content is the
width, else the width is empty.  `none` when the text has no word
character at all. -/
def parsePortEntry (port : List Char) : Option (List Char × List Char) :=
  let pre := port.dropWhile (fun c => ¬ isWordChar c)
  if pre = [] then none
  else
    let name := pre.takeWhile isWordChar
    let width :=
      match pre.drop name.length with
      | c :: t =>
        if c = '[' then
          let cont := t.takeWhile (fun x => ¬ x = ']')
          if cont ≠ [] then
            (match t.drop cont.length with
             | c2 :: _ => if c2 = ']' then cont else []
             | [] => ([] : List Char))
          else []
        else []
      | [] => ([] : List Char)
    some (name, width)

/-- Python-dict assignment on the per-module width map
(`self.port_widths[name] = width`). -/
def winsert (m : List (String × String)) (k v : String) : List (String × String) :=
  if m.any (fun e => e.1 == k) then m.map (fun e => if e.1 = k then (k, v) else e)
  else m ++ [(k, v)]

/-- Lookup with empty-string default, as the `port_widths.get` calls in the source. -/
def wlookup (m : List (String × String)) (k : String) : String :=
  match m.find? (fun e => e.1 == k) with
  | some e => e.2
  | none => ""

/-- One direction's loop of `ModuleItem.parse_port_widths`: rebuild the
port list with clean names while recording each name's width in the shared
map.  The state is (new_ports, port_widths). -/
def ppwList (ports : List String) (st : List String × List (String × String)) :
    List String × List (String × String) :=
  ports.foldl
    (fun st port =>
      match parsePortEntry port.data with
      | some nw => (st.1 ++ [String.mk nw.1], winsert st.2 (String.mk nw.1) (String.mk nw.2))
      | none => (st.1 ++ [port], winsert st.2 port ""))
    st

/-- The port data carried by a `ModuleItem` after its constructor ran
`parse_port_widths`: clean input and output names plus the width map. -/
structure ModulePorts where
  inputs : List String
  outputs : List String
  widths : List (String × String)
  deriving DecidableEq

/-- Embeds `ModuleItem.parse_port_widths`, applied by the `ModuleItem`
constructor to the raw interface: inputs first, then outputs, sharing one
width map. -/
def parse_port_widths (rawInputs rawOutputs : List String) : ModulePorts :=
  let r1 := ppwList rawInputs ([], [])
  let r2 := ppwList rawOutputs ([], r1.2)
  ⟨r1.1, r2.1, r2.2⟩

/-- Python `str.isdigit` on the whole string (ASCII model): nonempty and
all digits. -/
def strIsDigits (l : List Char) : Bool := !l.isEmpty && l.all isDigitChar

/-- Python `name.split('_')`. -/
def splitOnUS : List Char → List (List Char)
  | [] => [[]]
  | c :: rest =>
    if c = '_' then [] :: splitOnUS rest
    else
      match splitOnUS rest with
      | h :: t => (c :: h) :: t
      | [] => [[c]]

/-- Python underscore-join of the split segments. -/
def joinUS : List (List Char) → List Char
  | [] => []
  | [x] => x
  | x :: y :: t => x ++ '_' :: joinUS (y :: t)

/-- Embeds `DesignCanvas.get_module_type`: if the name contains `'_'` and its
last `'_'`-separated segment is all digits, drop that segment; else return
the name unchanged. -/
def get_module_type (module_name : String) : String :=
  let parts := splitOnUS module_name.data
  if ('_' ∈ module_name.data) ∧ strIsDigits (parts.getLastD []) then
    String.mk (joinUS parts.dropLast)
  else module_name

/-- The candidate instance names tried by `add_module_to_canvas` /
`add_module_from_library`, in order: the type name itself, then
`typeName_1`, `typeName_2`, ... -/
def candidate (typeName : String) (k : Nat) : String :=
  if k = 0 then typeName else typeName ++ "_" ++ Nat.repr k

/-- The `while instance_name in self.canvas.modules` loop, as structural
recursion on fuel; `freshInstanceName` supplies fuel for one more
candidate than there are existing names, which the pigeonhole theorem
below shows is always enough for the loop to exit on an unused name. -/
def freshFrom (typeName : String) (existing : List String) : Nat → Nat → String
  | 0, k => candidate typeName k
  | fuel + 1, k =>
    if candidate typeName k ∈ existing then freshFrom typeName existing fuel (k + 1)
    else candidate typeName k

def freshInstanceName (typeName : String) (existing : List String) : String :=
  freshFrom typeName existing (existing.length + 1) 0

/-- A wire of `DesignCanvas.wires`; module objects are identified by their
globally unique instance names.  The start side is the driving output, the
end side the driven input. -/
structure Wire where
  startModule : String
  startPort : String
  endModule : String
  endPort : String
  deriving DecidableEq

/-- The state owned by `DesignCanvas`: `modules` is the insertion-ordered
name-to-item dictionary, `wires` the wire list in creation order. -/
structure Canvas where
  modules : List (String × ModulePorts)
  wires : List Wire
  deriving DecidableEq

def lookupMod (c : Canvas) (name : String) : Option ModulePorts :=
  (c.modules.find? (fun e => e.1 == name)).map (fun e => e.2)

/-- Embeds `SystemVerilogDesigner.add_module_to_canvas` (the same naming loop
appears in `add_module_from_library`): pick the first unused candidate
name, build the `ModuleItem` (whose constructor runs
`parse_port_widths`), and insert it into the dictionary. -/
def add_module_to_canvas (c : Canvas) (typeName : String)
    (rawInputs rawOutputs : List String) : Canvas :=
  let inst := freshInstanceName typeName (c.modules.map (fun e => e.1))
  ⟨c.modules ++ [(inst, parse_port_widths rawInputs rawOutputs)], c.wires⟩

/-- Outcomes of the wire-finalization logic in
`DesignCanvas.mouseReleaseEvent` (the spec's error taxonomy). -/
inductive ConnectError where
  | selfConnection
  | directionMismatch
  | portAlreadyDriven
  | notFound
  deriving DecidableEq

/-- Tail of `mouseReleaseEvent` after direction validation and the
possible source/sink swap: if the destination port is an input, reject
when it already has an inbound wire, else append exactly one wire. -/
def finishConnect (c : Canvas) (srcM srcP dstM dstP : String) (dstPorts : ModulePorts) :
    Canvas × Option ConnectError :=
  if dstP ∈ dstPorts.inputs then
    if c.wires.any (fun w => w.endModule == dstM && w.endPort == dstP) then
      (c, some .portAlreadyDriven)
    else (⟨c.modules, c.wires ++ [⟨srcM, srcP, dstM, dstP⟩]⟩, none)
  else (⟨c.modules, c.wires ++ [⟨srcM, srcP, dstM, dstP⟩]⟩, none)

/-- The wire-creation logic of `DesignCanvas.mouseReleaseEvent`, with the
target port already resolved: a release on the start module is skipped
(self connection); output→input connects directly; input→output connects
with the two sides swapped; anything else is an invalid connection. -/
def connectOp (c : Canvas) (sm sp em ep : String) : Canvas × Option ConnectError :=
  if sm = em then (c, some .selfConnection)
  else
    match lookupMod c sm, lookupMod c em with
    | some sMod, some eMod =>
      if sp ∈ sMod.outputs ∧ ep ∈ eMod.inputs then
        finishConnect c sm sp em ep eMod
      else if sp ∈ sMod.inputs ∧ ep ∈ eMod.outputs then
        finishConnect c em ep sm sp sMod
      else (c, some .directionMismatch)
    | _, _ => (c, some .notFound)

/-- The module branch of `DesignCanvas.delete_selected_items`: remove
every wire touching the instance, then the instance itself. -/
def removeInstance (c : Canvas) (name : String) : Canvas :=
  if c.modules.any (fun e => e.1 == name) then
    ⟨c.modules.filter (fun e => ¬ e.1 = name),
     c.wires.filter (fun w => ¬ (w.startModule = name ∨ w.endModule = name))⟩
  else c

/-- The wire branch of `DesignCanvas.delete_selected_items`: remove
exactly that wire. -/
def removeConnection (c : Canvas) (w : Wire) : Canvas :=
  ⟨c.modules, c.wires.erase w⟩

/-- Canvas states reachable from a fresh `DesignCanvas` through the
mutating operations of the application. -/
inductive Reachable : Canvas → Prop where
  | init : Reachable ⟨[], []⟩
  | add (c : Canvas) (t : String) (ri ro : List String) :
      Reachable c → Reachable (add_module_to_canvas c t ri ro)
  | conn (c : Canvas) (sm sp em ep : String) :
      Reachable c → Reachable (connectOp c sm sp em ep).1
  | delMod (c : Canvas) (n : String) :
      Reachable c → Reachable (removeInstance c n)
  | delWire (c : Canvas) (w : Wire) :
      Reachable c → Reachable (removeConnection c w)

/-- Width prefix of a port declaration: the bracketed width when the port has a recorded nonempty width, else empty. -/
def widthStr (m : ModulePorts) (p : String) : String :=
  let w := wlookup m.widths p
  if w ≠ "" then "[" ++ w ++ "]" else ""

/-- External input collection of `generate_systemverilog`: every input
port with no inbound wire becomes `(instanceName_port, width)`. -/
def externalInputs (c : Canvas) : List (String × String) :=
  (c.modules.map (fun e =>
    e.2.inputs.filterMap (fun p =>
      if c.wires.any (fun w => w.endModule == e.1 && w.endPort == p) then none
      else some (e.1 ++ "_" ++ p, widthStr e.2 p)))).flatten

/-- External output collection of `generate_systemverilog`: every output
port with no outbound wire becomes `(instanceName_port, width)`. -/
def externalOutputs (c : Canvas) : List (String × String) :=
  (c.modules.map (fun e =>
    e.2.outputs.filterMap (fun p =>
      if c.wires.any (fun w => w.startModule == e.1 && w.startPort == p) then none
      else some (e.1 ++ "_" ++ p, widthStr e.2 p)))).flatten

/-- Deterministic internal signal name of a wire: a w prefix and the qualified start and end port names joined by a to separator. -/
def wireName (w : Wire) : String :=
  "w_" ++ w.startModule ++ "_" ++ w.startPort ++ "_to_" ++ w.endModule ++ "_" ++ w.endPort

/-- Width prefix of an internal wire declaration, taken from the start
(output) module's width map. -/
def wireDeclWidth (c : Canvas) (w : Wire) : String :=
  match lookupMod c w.startModule with
  | some m => widthStr m w.startPort
  | none => ""

/-- Opening line of an instantiation block: two spaces, the emitted module type, the instance name, an opening parenthesis. -/
def instHeader (instName : String) : String :=
  "  " ++ get_module_type instName ++ " " ++ instName ++ " ("

/-- The port-connection lines of one instantiation block: inputs bind to
the first inbound wire's name, outputs to the first outbound wire's name,
unconnected ports to the external name `instanceName_port`. -/
def portConns (c : Canvas) (e : String × ModulePorts) : List String :=
  (e.2.inputs ++ e.2.outputs).map (fun p =>
    if p ∈ e.2.inputs then
      match c.wires.find? (fun w => w.endModule == e.1 && w.endPort == p) with
      | some w => "    ." ++ p ++ "(" ++ wireName w ++ ")"
      | none => "    ." ++ p ++ "(" ++ e.1 ++ "_" ++ p ++ ")"
    else if p ∈ e.2.outputs then
      match c.wires.find? (fun w => w.startModule == e.1 && w.startPort == p) with
      | some w => "    ." ++ p ++ "(" ++ wireName w ++ ")"
      | none => "    ." ++ p ++ "(" ++ e.1 ++ "_" ++ p ++ ")"
    else "    ." ++ p ++ "(" ++ e.1 ++ "_" ++ p ++ ")")

/-- One instantiation block of the emitted text. -/
def instBlock (c : Canvas) (e : String × ModulePorts) : List String :=
  let conns := portConns c e
  [instHeader e.1] ++
  [if conns = [] then "    // No connections" else String.intercalate ",\n" conns] ++
  ["  );", ""]

/-- The `sv_code` list of `generate_systemverilog` before the header is
prepended: module header, external port declarations, internal wire
declarations, instantiation blocks, `endmodule`. -/
def svCode (c : Canvas) (topName : String) : List String :=
  let portLines :=
    (externalInputs c).map (fun pw => "  input wire " ++ pw.2 ++ pw.1) ++
    (externalOutputs c).map (fun pw => "  output wire " ++ pw.2 ++ pw.1)
  ["module " ++ topName ++ " ("] ++
  [if portLines = [] then "  // No external connections"
   else String.intercalate ",\n" portLines] ++
  [");"] ++
  c.wires.map (fun w => "  wire " ++ wireDeclWidth c w ++ wireName w ++ ";") ++
  (if c.wires = [] then [] else [""]) ++
  (c.modules.map (instBlock c)).flatten ++
  ["endmodule"]

/-- An ASCII single quote, written by code point to keep the source free
of stray quote characters. -/
def squote : String := String.singleton (Char.ofNat 39)

/-- The banner line of the emitted header: two slashes followed by 77
equals signs, built by replication rather than as a literal. -/
def headerBar : String := "//" ++ String.mk (List.replicate 77 '=')

/-- The metadata header of `generate_systemverilog`.  `timestamp` models
`QDateTime.currentDateTime().toString(...)` (the moment of the run) and
`filename` the basename of the user-chosen output path. -/
def genHeader (c : Canvas) (topName timestamp filename : String) : List String :=
  [headerBar,
   "// File: " ++ filename,
   "// Date: " ++ timestamp,
   "// Description: Top level SystemVerilog module " ++ squote ++ topName ++ squote ++
     " generated by SystemVerilog Designer",
   "// Contains the following module instances:"] ++
  c.modules.map (fun e => "//   - " ++ e.1) ++
  [headerBar,
   ""]

/-- Embeds `SystemVerilogDesigner.generate_systemverilog`: refuse an empty
canvas before anything is produced (no text, no file); otherwise join the
header and the code lines with newlines into the text that is written to
the chosen file. -/
def generate_systemverilog (c : Canvas) (topName timestamp filename : String) :
    Option String :=
  if c.modules.isEmpty then none
  else some (String.intercalate "\n"
    (genHeader c topName timestamp filename ++ svCode c topName))

/-- No opening bracket occurs in the name. -/
def bracketFree (l : List Char) : Bool := l.all (fun c => ¬ c = '[')

/-- The name part of a stored interface entry: everything before the
first `'['` (entries are `name` or `name[range]`). -/
def entryBase (e : List Char) : List Char := e.takeWhile (fun c => ¬ c = '[')

/-- The bare identifier of an interface entry of the form `name` or
`name[range]`: the leading word-character run. -/
def bareName (e : String) : String := String.mk (e.data.takeWhile isWordChar)

/-- The range of an interface entry: the bracket content after the name,
empty for a bare entry. -/
def entryWidth (e : String) : String :=
  match e.data.drop (e.data.takeWhile isWordChar).length with
  | c :: t => if c = '[' then String.mk t.dropLast else ""
  | [] => ""

/-- An entry is well formed when it is a nonempty identifier optionally
followed by exactly one `[range]` with a nonempty, bracket-free range —
the `name[range]` shape the claim speaks about. -/
def wfEntry (e : String) : Bool :=
  let d := e.data
  let nm := d.takeWhile isWordChar
  decide (nm ≠ []) &&
    (match d.drop nm.length with
     | [] => true
     | c :: t =>
       decide (c = '[') && decide (t = t.dropLast ++ [']']) &&
         decide (t.dropLast ≠ []) && t.dropLast.all (fun x => ¬ x = ']'))

/-- Decimal digit list of a natural number, most significant first. -/
def digitList (n : Nat) : List Char :=
  if n < 10 then [Nat.digitChar n]
  else digitList (n / 10) ++ [Nat.digitChar (n % 10)]
termination_by n
decreasing_by
  exact Nat.div_lt_self (by omega) (by omega)

/-- Decoding of `Nat.digitChar` on decimal digits. -/
def digitVal (c : Char) : Nat := c.toNat - 48

/-- Number of wires driving the port `p` of the instance named `m`. -/
def inboundCount (c : Canvas) (m p : String) : Nat :=
  (c.wires.filter (fun w => w.endModule == m && w.endPort == p)).length

/-- A canvas holding a single instance, used as the concrete run for the
determinism counterexample. -/
def cOne : Canvas := add_module_to_canvas ⟨[], []⟩ "m" [] []

/-- The inline-direction parse of the claim's group. -/
def c2ansi : List (List Char) × List (List Char) × List (List Char) :=
  parse_ansi_port_list "input a[7:0], b, c[WIDTH-1:0]".data

/-- The `ModuleItem` port data built from that parse. -/
def c2mp : ModulePorts :=
  parse_port_widths (c2ansi.1.map String.mk) ((c2ansi.2.1 ++ c2ansi.2.2).map String.mk)

/-- A library module whose type name itself ends in an underscore and
digits, placed once on an empty canvas. -/
def c6canvas : Canvas := add_module_to_canvas ⟨[], []⟩ "foo_1" [] ["y"]

/-- A canvas with a driven input `d.i` and a second available source
`s2.o2`. -/
def c4canvas : Canvas :=
  ⟨[("s", ⟨[], ["o"], []⟩), ("d", ⟨["i"], [], []⟩), ("s2", ⟨[], ["o2"], []⟩)],
   [⟨"s", "o", "d", "i"⟩]⟩

/-- A concrete reachable canvas: two `adder` instances with
`adder.sum` driving `adder_1.a`. -/
def cReach : Canvas :=
  (connectOp
    (add_module_to_canvas
      (add_module_to_canvas ⟨[], []⟩ "adder" ["a[3:0]", "b[3:0]"] ["sum[4:0]"])
      "adder" ["a[3:0]", "b[3:0]"] ["sum[4:0]"])
    "adder" "sum" "adder_1" "a").1

/-! ## Sanity checks of the embedding on concrete inputs -/
example : get_module_type "adder" = "adder" := by decide

example : freshInstanceName "adder" ["xor", "adder_1"] = "adder" := by decide


example : split_comma_list "a[7:0], b, c[WIDTH-1:0]".data =
    ["a".data, "b".data, "c".data] := by decide

example : parse_ansi_port_list "input a[7:0], b, c[WIDTH-1:0]".data =
    (["a".data, "b".data, "c".data], [], []) := by decide

example : parse_ansi_port_list "input [3:0] a, input [4:0] b, output [5:0] s".data =
    (["a[3:0]".data, "b[4:0]".data], ["s[5:0]".data], []) := by decide

example : parse_module_body "\n  input [3:0] a;\n  output sum;\n".data
    ["a".data, "sum".data] = (["a[3:0]".data], ["sum".data], []) := by decide

example : parse_module_body "\n  input [3:0] a;\n  input [7:0] a;\n".data
    ["a".data] = (["a[3:0]".data, "a[7:0]".data], [], []) := by decide

example : parse_file (.ok "module adder(input [3:0] a, input [3:0] b, output [4:0] sum); endmodule".data) =
    [("adder".data, (["a[3:0]".data, "b[3:0]".data], ["sum[4:0]".data]))] := by decide

example : get_module_type "adder_1" = "adder" := by decide

example : get_module_type "foo_1" = "foo" := by decide

example : freshInstanceName "adder" ["adder", "adder_1"] = "adder_2" := by decide

/-! ## Claim C1 -/

/-- Claim C1 as stated is false: two synthesis runs on the same canvas
differ byte-for-byte when performed at different times, because the
emitted header embeds the run's timestamp (and the chosen file name). -/
theorem C1_counterexample :
    generate_systemverilog cOne "top" "2024-01-01 00:00:00" "t.sv"
      ≠ generate_systemverilog cOne "top" "2024-01-02 00:00:00" "t.sv" := by decide

theorem genHeader_length (c : Canvas) (topName timestamp filename : String) :
    (genHeader c topName timestamp filename).length = 7 + c.modules.length := by
  simp [genHeader]
  omega

/-- Claim C1, amended: the output is byte-identical across runs except
for the comment header (7 lines plus one line per instance), which embeds
the run's timestamp and output file name; every line after the header is
a function of the canvas and the top-module name alone, ordered by
instance-creation order, wire-creation order and interface
port-declaration order. -/
theorem C1_amended_header_only_varies (c : Canvas)
    (topName t1 f1 t2 f2 : String) :
    (genHeader c topName t1 f1 ++ svCode c topName).drop (7 + c.modules.length)
      = (genHeader c topName t2 f2 ++ svCode c topName).drop (7 + c.modules.length) := by
  rw [← genHeader_length c topName t1 f1, List.drop_left,
    genHeader_length c topName t1 f1, ← genHeader_length c topName t2 f2,
    List.drop_left]

/-! ## Claim C2 -/

/-- Claim C2 as stated is false: on the group
`a[7:0], b, c[WIDTH-1:0]` the names are `a`, `b`, `c`, but the per-name
trailing ranges are stripped rather than kept — every width comes out
empty, not `7:0` / `WIDTH-1:0`. -/
theorem C2_counterexample :
    c2mp.inputs = ["a", "b", "c"] ∧
    wlookup c2mp.widths "a" = "" ∧ wlookup c2mp.widths "c" = "" ∧
    ¬ (wlookup c2mp.widths "a" = "7:0" ∧ wlookup c2mp.widths "c" = "WIDTH-1:0") := by
  decide

/-- Claim C2, amended: splitting the group yields exactly the names
`a`, `b`, `c`, but a name's own trailing bracketed range is deleted by
`extract_port_name`, never kept: all names receive the group's default
range — empty here, and `3:0` for every name (including `a[7:0]`) in a
group with default `[3:0]`. -/
theorem C2_amended_group_default_applies :
    split_comma_list "a[7:0], b, c[WIDTH-1:0]".data = ["a".data, "b".data, "c".data] ∧
    parse_ansi_port_list "input a[7:0], b, c[WIDTH-1:0]".data
      = (["a".data, "b".data, "c".data], [], []) ∧
    wlookup c2mp.widths "a" = "" ∧ wlookup c2mp.widths "b" = "" ∧
    wlookup c2mp.widths "c" = "" ∧
    parse_ansi_port_list "input [3:0] a[7:0], b".data
      = (["a[3:0]".data, "b[3:0]".data], [], []) := by decide

/-! ## Claim C6 -/

/-- Claim C6 as stated is false: the instance created from the library
type `foo_1` is named `foo_1`, yet its instantiation block references
`foo` — the heuristic `get_module_type` strips the trailing `_1` even
though it is part of the type name, so the emitted name is neither the
type name nor obtained from the library. -/
theorem C6_counterexample :
    c6canvas.modules.map (fun e => e.1) = ["foo_1"] ∧
    instHeader "foo_1" = "  foo foo_1 (" ∧
    instHeader "foo_1" ∈ svCode c6canvas "top" ∧
    get_module_type "foo_1" ≠ "foo_1" := by decide

/-! ## Claim C8 -/

/-- Claim C8: with zero instances, synthesis is refused before any text
is produced or any file dialog is reached; the result is `none`, so
nothing is written. -/
theorem C8_empty_netlist_refused (c : Canvas) (topName timestamp filename : String)
    (h : c.modules = []) :
    generate_systemverilog c topName timestamp filename = none := by
  simp [generate_systemverilog, h]

theorem C8_empty_netlist_refused_witness :
    (⟨[], []⟩ : Canvas).modules = [] ∧
    generate_systemverilog ⟨[], []⟩ "top" "2024" "t.sv" = none :=
  ⟨rfl, C8_empty_netlist_refused ⟨[], []⟩ "top" "2024" "t.sv" rfl⟩

/-! ## Claim C9 -/

/-- Claim C9: `parse_file` wraps everything in `try/except`, and the file
read precedes any accumulation into the module mapping, so any I/O
failure yields the mapping accumulated before the error — the empty
mapping.  (In the embedding the function is total, so no exception can
reach the caller on any input.) -/
theorem C9_read_error_yields_empty (e : List Char) :
    parse_file (Except.error e) = [] := rfl

/-! ## Claim C7 -/

/-- Claim C7 as stated is false: when the first declaration of a
twice-declared port carries a width, the duplicate check
(`port not in inputs`) compares the bare name against the width-suffixed
stored entry and misses, so the name is recorded once per declaration —
here `a` appears twice, with both `[3:0]` and `[7:0]`. -/
theorem C7_counterexample :
    (parse_module_body "\n  input [3:0] a;\n  input [7:0] a;\n".data ["a".data]).1
      = ["a[3:0]".data, "a[7:0]".data] ∧
    ((parse_module_body "\n  input [3:0] a;\n  input [7:0] a;\n".data ["a".data]).1.countP
      (fun e => extract_port_name e == "a".data)) = 2 := by decide

theorem entryBase_of_bracketFree {p : List Char} (h : bracketFree p = true) :
    entryBase p = p := by
  induction p with
  | nil => rfl
  | cons c rest ih =>
    simp only [bracketFree, List.all_cons, Bool.and_eq_true] at h
    simp only [entryBase, List.takeWhile_cons, h.1, if_true]
    exact congrArg (c :: ·) (ih h.2)

theorem entryBase_append_bracket {p : List Char} (rest : List Char)
    (h : bracketFree p = true) : entryBase (p ++ '[' :: rest) = p := by
  induction p with
  | nil => simp [entryBase]
  | cons c t ih =>
    simp only [bracketFree, List.all_cons, Bool.and_eq_true] at h
    simp only [List.cons_append, entryBase, List.takeWhile_cons, h.1, if_true]
    exact congrArg (c :: ·) (ih h.2)

/-- The entry appended by `addPorts` for a port `p` under block range `w`. -/
theorem entryBase_entry {p : List Char} (w : List Char) (h : bracketFree p = true) :
    entryBase (if w ≠ [] then p ++ '[' :: w ++ [']'] else p) = p := by
  by_cases hw : w ≠ []
  · rw [if_pos hw, List.append_assoc, List.cons_append]
    exact entryBase_append_bracket _ h
  · rw [if_neg hw]
    exact entryBase_of_bracketFree h

theorem addPorts_inv1 (pn : List (List Char)) (w : List Char) (n : List Char)
    (hbn : bracketFree n = true) :
    ∀ ports acc, (∀ p ∈ ports, bracketFree p = true) →
      (acc.countP (fun e => entryBase e == n)) = 1 → n ∈ acc →
      ((addPorts pn w ports acc).countP (fun e => entryBase e == n)) = 1 ∧
        n ∈ addPorts pn w ports acc := by
  intro ports
  induction ports with
  | nil => intro acc _ h1 h2; exact ⟨h1, h2⟩
  | cons p rest ih =>
    intro acc hfree h1 h2
    simp only [addPorts]
    by_cases hcond : p ∈ pn ∧ p ∉ acc
    · rw [if_pos hcond]
      have hp : p ≠ n := by
        rintro rfl
        exact hcond.2 h2
      have hbp : bracketFree p = true := hfree p (List.mem_cons_self p rest)
      have hcount : ((acc ++ [if w ≠ [] then p ++ '[' :: w ++ [']'] else p]).countP
          (fun e => entryBase e == n)) = 1 := by
        rw [List.countP_append, List.countP_cons, List.countP_nil]
        have : (entryBase (if w ≠ [] then p ++ '[' :: w ++ [']'] else p) == n) = false := by
          rw [entryBase_entry w hbp]
          exact beq_false_of_ne hp
        rw [this]
        simpa using h1
      have hmem : n ∈ acc ++ [if w ≠ [] then p ++ '[' :: w ++ [']'] else p] :=
        List.mem_append_left _ h2
      exact ih _ (fun q hq => hfree q (List.mem_cons_of_mem p hq)) hcount hmem
    · rw [if_neg hcond]
      exact ih acc (fun q hq => hfree q (List.mem_cons_of_mem p hq)) h1 h2

theorem addPorts_inv0 (pn : List (List Char)) (w : List Char) (n : List Char) :
    ∀ ports acc, n ∉ ports →
      (acc.countP (fun e => entryBase e == n)) = 0 → n ∉ acc →
      (∀ p ∈ ports, bracketFree p = true) → bracketFree n = true →
      ((addPorts pn w ports acc).countP (fun e => entryBase e == n)) = 0 ∧
        n ∉ addPorts pn w ports acc := by
  intro ports
  induction ports with
  | nil => intro acc _ h1 h2 _ _; exact ⟨h1, h2⟩
  | cons p rest ih =>
    intro acc hnp h1 h2 hfree hbn
    have hp : p ≠ n := fun h => hnp (h ▸ List.mem_cons_self p rest)
    have hbp : bracketFree p = true := hfree p (List.mem_cons_self p rest)
    simp only [addPorts]
    by_cases hcond : p ∈ pn ∧ p ∉ acc
    · rw [if_pos hcond]
      have hcount : ((acc ++ [if w ≠ [] then p ++ '[' :: w ++ [']'] else p]).countP
          (fun e => entryBase e == n)) = 0 := by
        rw [List.countP_append, List.countP_cons, List.countP_nil]
        have : (entryBase (if w ≠ [] then p ++ '[' :: w ++ [']'] else p) == n) = false := by
          rw [entryBase_entry w hbp]
          exact beq_false_of_ne hp
        rw [this]
        simpa using h1
      have hmem : n ∉ acc ++ [if w ≠ [] then p ++ '[' :: w ++ [']'] else p] := by
        intro hmem
        rcases List.mem_append.mp hmem with h | h
        · exact h2 h
        · rcases List.mem_singleton.mp h with rfl
          have := entryBase_entry w hbp
          rw [entryBase_of_bracketFree hbn] at this
          exact hp this.symm
      exact ih _ (fun h => hnp (List.mem_cons_of_mem p h)) hcount hmem
        (fun q hq => hfree q (List.mem_cons_of_mem p hq)) hbn
    · rw [if_neg hcond]
      exact ih acc (fun h => hnp (List.mem_cons_of_mem p h)) h1 h2
        (fun q hq => hfree q (List.mem_cons_of_mem p hq)) hbn

theorem addPorts_promote (pn : List (List Char)) (n : List Char)
    (hpn : n ∈ pn) (hbn : bracketFree n = true) :
    ∀ ports acc, n ∈ ports → (∀ p ∈ ports, bracketFree p = true) →
      (acc.countP (fun e => entryBase e == n)) = 0 → n ∉ acc →
      ((addPorts pn [] ports acc).countP (fun e => entryBase e == n)) = 1 ∧
        n ∈ addPorts pn [] ports acc := by
  intro ports
  induction ports with
  | nil => intro acc h; exact absurd h (List.not_mem_nil n)
  | cons p rest ih =>
    intro acc hmem hfree h1 h2
    simp only [addPorts]
    by_cases hp : n = p
    · subst hp
      rw [if_pos ⟨hpn, h2⟩]
      have hentry : (if ([] : List Char) ≠ [] then n ++ '[' :: [] ++ [']'] else n) = n :=
        if_neg (by simp)
      rw [hentry]
      have hcount : ((acc ++ [n]).countP (fun e => entryBase e == n)) = 1 := by
        rw [List.countP_append, List.countP_cons, List.countP_nil]
        have : (entryBase n == n) = true := by
          rw [entryBase_of_bracketFree hbn]
          exact beq_self_eq_true n
        rw [this]
        simpa using h1
      exact addPorts_inv1 pn [] n hbn rest _
        (fun q hq => hfree q (List.mem_cons_of_mem n hq)) hcount
        (List.mem_append_right _ (List.mem_singleton.mpr rfl))
    · have hmem2 : n ∈ rest := by
        rcases List.mem_cons.mp hmem with h | h
        · exact absurd h hp
        · exact h
      have hbp : bracketFree p = true := hfree p (List.mem_cons_self p rest)
      by_cases hcond : p ∈ pn ∧ p ∉ acc
      · rw [if_pos hcond]
        have hentry : (if ([] : List Char) ≠ [] then p ++ '[' :: [] ++ [']'] else p) = p :=
          if_neg (by simp)
        rw [hentry]
        have hcount : ((acc ++ [p]).countP (fun e => entryBase e == n)) = 0 := by
          rw [List.countP_append, List.countP_cons, List.countP_nil]
          have : (entryBase p == n) = false := by
            rw [entryBase_of_bracketFree hbp]
            exact beq_false_of_ne (fun hh => hp hh.symm)
          rw [this]
          simpa using h1
        have hnmem : n ∉ acc ++ [p] := by
          intro hx
          rcases List.mem_append.mp hx with h | h
          · exact h2 h
          · exact hp (List.mem_singleton.mp h)
        exact ih _ hmem2 (fun q hq => hfree q (List.mem_cons_of_mem p hq)) hcount hnmem
      · rw [if_neg hcond]
        exact ih acc hmem2 (fun q hq => hfree q (List.mem_cons_of_mem p hq)) h1 h2

theorem processBlocks_append (pn : List (List Char)) :
    ∀ (l1 l2 : List (List Char × List Char)) acc,
      processBlocks pn (l1 ++ l2) acc = processBlocks pn l2 (processBlocks pn l1 acc) := by
  intro l1
  induction l1 with
  | nil => intro l2 acc; rfl
  | cons b rest ih =>
    intro l2 acc
    cases b with
    | mk w blk => simpa [processBlocks] using ih l2 _

theorem processBlocks_inv0 (pn : List (List Char)) (n : List Char)
    (hbn : bracketFree n = true) :
    ∀ blocks acc, (∀ b ∈ blocks, ∀ p ∈ split_comma_list b.2, bracketFree p = true) →
      (∀ b ∈ blocks, n ∉ split_comma_list b.2) →
      (acc.countP (fun e => entryBase e == n)) = 0 → n ∉ acc →
      ((processBlocks pn blocks acc).countP (fun e => entryBase e == n)) = 0 ∧
        n ∉ processBlocks pn blocks acc := by
  intro blocks
  induction blocks with
  | nil => intro acc _ _ h1 h2; exact ⟨h1, h2⟩
  | cons b rest ih =>
    intro acc hfree hno h1 h2
    cases b with
    | mk w blk =>
      simp only [processBlocks]
      have hstep := addPorts_inv0 pn w n (split_comma_list blk) acc
        (hno (w, blk) (List.mem_cons_self _ rest)) h1 h2
        (hfree (w, blk) (List.mem_cons_self _ rest)) hbn
      exact ih _ (fun b hb => hfree b (List.mem_cons_of_mem _ hb))
        (fun b hb => hno b (List.mem_cons_of_mem _ hb)) hstep.1 hstep.2

theorem processBlocks_inv1 (pn : List (List Char)) (n : List Char)
    (hbn : bracketFree n = true) :
    ∀ blocks acc, (∀ b ∈ blocks, ∀ p ∈ split_comma_list b.2, bracketFree p = true) →
      (acc.countP (fun e => entryBase e == n)) = 1 → n ∈ acc →
      ((processBlocks pn blocks acc).countP (fun e => entryBase e == n)) = 1 ∧
        n ∈ processBlocks pn blocks acc := by
  intro blocks
  induction blocks with
  | nil => intro acc _ h1 h2; exact ⟨h1, h2⟩
  | cons b rest ih =>
    intro acc hfree h1 h2
    cases b with
    | mk w blk =>
      simp only [processBlocks]
      have hstep := addPorts_inv1 pn w n hbn (split_comma_list blk) acc
        (hfree (w, blk) (List.mem_cons_self _ rest)) h1 h2
      exact ih _ (fun b hb => hfree b (List.mem_cons_of_mem _ hb)) hstep.1 hstep.2

/-- Claim C7, amended: within one direction, a port name of the bare list
is recorded exactly once (as its bare self, first declaration winning with
an empty width) provided the first declaration block of that direction
that mentions the name carries no width; a widthed first declaration does
not suppress later re-declarations of the same name (see the
counterexample).  The statement is proved for an arbitrary direction
keyword `kw`, and the final conjunct records that `parse_module_body`
folds each of its three directions — input, output, inout — with exactly
this function, so the rule holds per direction. -/
theorem C7_amended_first_wins_when_unwidthed (body : List Char)
    (pn : List (List Char)) (n : List Char) (kw : List Char) (hpn : n ∈ pn)
    (hfree : ∀ b ∈ findAllDecl kw body,
      ∀ p ∈ split_comma_list b.2, bracketFree p = true)
    (hsplit : ∃ pre blk post,
      findAllDecl kw body = pre ++ ([], blk) :: post ∧
      n ∈ split_comma_list blk ∧ ∀ b ∈ pre, n ∉ split_comma_list b.2) :
    (n ∈ processBlocks pn (findAllDecl kw body) [] ∧
      ((processBlocks pn (findAllDecl kw body) []).countP
        (fun e => entryBase e == n)) = 1) ∧
    parse_module_body body pn
      = (processBlocks pn (findAllDecl "input".data body) [],
         processBlocks pn (findAllDecl "output".data body) [],
         processBlocks pn (findAllDecl "inout".data body) []) := by
  refine ⟨?_, rfl⟩
  obtain ⟨pre, blk, post, heq, hin, hnot⟩ := hsplit
  have hmemblk : ([], blk) ∈ findAllDecl kw body := by
    rw [heq]
    exact List.mem_append_right _ (List.mem_cons_self _ _)
  have hbn : bracketFree n = true := hfree ([], blk) hmemblk n hin
  rw [heq] at hfree
  have hfreepre : ∀ b ∈ pre, ∀ p ∈ split_comma_list b.2, bracketFree p = true :=
    fun b hb => hfree b (List.mem_append_left _ hb)
  have hfreepost : ∀ b ∈ post, ∀ p ∈ split_comma_list b.2, bracketFree p = true :=
    fun b hb => hfree b (List.mem_append_right _ (List.mem_cons_of_mem _ hb))
  have hfreeblk : ∀ p ∈ split_comma_list blk, bracketFree p = true :=
    hfree ([], blk) (List.mem_append_right _ (List.mem_cons_self _ _))
  rw [heq, processBlocks_append]
  have h0 := processBlocks_inv0 pn n hbn pre [] hfreepre hnot (by rfl) (List.not_mem_nil n)
  simp only [processBlocks]
  have hmid := addPorts_promote pn n hpn hbn (split_comma_list blk)
    (processBlocks pn pre []) hin hfreeblk h0.1 h0.2
  have hfin := processBlocks_inv1 pn n hbn post _ hfreepost hmid.1 hmid.2
  exact ⟨hfin.2, hfin.1⟩

theorem C7_amended_first_wins_when_unwidthed_witness :
    ("a".data ∈ processBlocks ["a".data, "b".data]
        (findAllDecl "input".data "\n  input a, b;\n  input [7:0] a;\n".data) [] ∧
      ((processBlocks ["a".data, "b".data]
        (findAllDecl "input".data "\n  input a, b;\n  input [7:0] a;\n".data) []).countP
        (fun e => entryBase e == "a".data)) = 1) ∧
    parse_module_body "\n  input a, b;\n  input [7:0] a;\n".data ["a".data, "b".data]
      = (processBlocks ["a".data, "b".data]
          (findAllDecl "input".data "\n  input a, b;\n  input [7:0] a;\n".data) [],
         processBlocks ["a".data, "b".data]
          (findAllDecl "output".data "\n  input a, b;\n  input [7:0] a;\n".data) [],
         processBlocks ["a".data, "b".data]
          (findAllDecl "inout".data "\n  input a, b;\n  input [7:0] a;\n".data) []) :=
  C7_amended_first_wins_when_unwidthed "\n  input a, b;\n  input [7:0] a;\n".data
    ["a".data, "b".data] "a".data "input".data (by decide) (by decide)
    ⟨[], "a, b".data, [("7:0".data, " a".data)], by decide, by decide, by decide⟩

/-! ## Claim C10 -/

theorem takeWhile_neRB_append (w r : List Char) (h : ∀ c ∈ w, ¬ c = ']') :
    (w ++ ']' :: r).takeWhile (fun x => ¬ x = ']') = w := by
  induction w with
  | nil => simp [List.takeWhile_cons]
  | cons c t ih =>
    have hc := h c (List.mem_cons_self c t)
    simp only [List.cons_append, List.takeWhile_cons, decide_not]
    simp only [decide_eq_false hc, Bool.not_false, if_true]
    have := ih (fun q hq => h q (List.mem_cons_of_mem c hq))
    simp only [decide_not] at this
    rw [this]

theorem parsePortEntry_wf (e : String) (h : wfEntry e = true) :
    parsePortEntry e.data = some ((bareName e).data, (entryWidth e).data) := by
  simp only [wfEntry, Bool.and_eq_true, decide_eq_true_eq] at h
  obtain ⟨hnm, hrest⟩ := h
  have hd : ∃ c r, e.data = c :: r ∧ isWordChar c = true := by
    cases hde : e.data with
    | nil => rw [hde] at hnm; simp at hnm
    | cons c r =>
      rw [hde, List.takeWhile_cons] at hnm
      by_cases hcw : isWordChar c
      · exact ⟨c, r, rfl, hcw⟩
      · simp [hcw] at hnm
  obtain ⟨c, r, hde, hcw⟩ := hd
  have hpre : e.data.dropWhile (fun x => ¬ isWordChar x) = e.data := by
    rw [hde, List.dropWhile_cons]
    simp [hcw]
  have hne : e.data ≠ [] := by rw [hde]; exact List.cons_ne_nil c r
  simp only [parsePortEntry, bareName, entryWidth, hpre, if_neg hne]
  cases hr : e.data.drop (e.data.takeWhile isWordChar).length with
  | nil => simp
  | cons c2 t =>
    rw [hr] at hrest
    simp only [Bool.and_eq_true, decide_eq_true_eq] at hrest
    obtain ⟨⟨⟨hc2, ht⟩, hdl⟩, hall⟩ := hrest
    dsimp only
    rw [if_pos hc2, if_pos hc2]
    have hallm : ∀ x ∈ t.dropLast, ¬ x = ']' := by
      intro x hx
      have := (List.all_eq_true.mp hall) x hx
      simpa using this
    have hcont : t.takeWhile (fun x => ¬ x = ']') = t.dropLast := by
      conv_lhs => rw [ht]
      exact takeWhile_neRB_append _ [] hallm
    rw [hcont, if_pos hdl]
    have hdrop : t.drop t.dropLast.length = [']'] := by
      obtain ⟨w, hw⟩ : ∃ w, t.dropLast = w := ⟨_, rfl⟩
      rw [hw] at ht ⊢
      rw [ht]
      exact List.drop_left w [']']
    rw [hdrop]
    simp

theorem find_map_replace (k v : String) :
    ∀ m : List (String × String), m.any (fun e => e.1 == k) = true →
      (m.map (fun e => if e.1 = k then (k, v) else e)).find? (fun e => e.1 == k)
        = some (k, v) := by
  intro m
  induction m with
  | nil => intro h; simp at h
  | cons e rest ih =>
    intro h
    by_cases he : e.1 = k
    · simp [List.find?_cons, he]
    · rw [List.any_cons, show (e.1 == k) = false from beq_false_of_ne he,
        Bool.false_or] at h
      simp only [List.map_cons, if_neg he]
      rw [List.find?_cons, show (e.1 == k) = false from beq_false_of_ne he]
      exact ih h

theorem find_append_new (k v : String) :
    ∀ m : List (String × String), m.any (fun e => e.1 == k) = false →
      (m ++ [(k, v)]).find? (fun e => e.1 == k) = some (k, v) := by
  intro m
  induction m with
  | nil => simp
  | cons e rest ih =>
    intro h
    rw [List.any_cons] at h
    simp only [Bool.or_eq_false_iff] at h
    simp only [List.cons_append, List.find?_cons, h.1]
    exact ih h.2

theorem find_map_replace_other (k v k2 : String) (h : k2 ≠ k) :
    ∀ m : List (String × String),
      (m.map (fun e => if e.1 = k then (k, v) else e)).find? (fun e => e.1 == k2)
        = m.find? (fun e => e.1 == k2) := by
  intro m
  induction m with
  | nil => rfl
  | cons e rest ih =>
    by_cases he : e.1 = k
    · simp only [List.map_cons, if_pos he, List.find?_cons]
      rw [show (k == k2) = false from beq_false_of_ne (Ne.symm h),
        show (e.1 == k2) = false from beq_false_of_ne (by rw [he]; exact Ne.symm h)]
      exact ih
    · simp only [List.map_cons, if_neg he]
      rw [List.find?_cons, List.find?_cons]
      cases hp : (e.1 == k2)
      · exact ih
      · rfl

theorem find_append_other (k v k2 : String) (h : k2 ≠ k) :
    ∀ m : List (String × String),
      (m ++ [(k, v)]).find? (fun e => e.1 == k2) = m.find? (fun e => e.1 == k2) := by
  intro m
  induction m with
  | nil => simp [List.find?_cons, beq_false_of_ne (Ne.symm h)]
  | cons e rest ih =>
    simp only [List.cons_append]
    rw [List.find?_cons, List.find?_cons]
    cases hp : (e.1 == k2)
    · exact ih
    · rfl

theorem wlookup_winsert_self (m : List (String × String)) (k v : String) :
    wlookup (winsert m k v) k = v := by
  unfold winsert wlookup
  by_cases hany : m.any (fun e => e.1 == k)
  · rw [if_pos hany, find_map_replace k v m hany]
  · rw [if_neg hany, find_append_new k v m (Bool.of_not_eq_true hany)]

theorem wlookup_winsert_other (m : List (String × String)) (k v k2 : String)
    (h : k2 ≠ k) : wlookup (winsert m k v) k2 = wlookup m k2 := by
  unfold winsert wlookup
  by_cases hany : m.any (fun e => e.1 == k)
  · rw [if_pos hany, find_map_replace_other k v k2 h m]
  · rw [if_neg hany, find_append_other k v k2 h m]

theorem wfold_lookup_preserve :
    ∀ (entries : List String) (m : List (String × String)) (k : String),
      (∀ q ∈ entries, bareName q ≠ k) →
      wlookup (entries.foldl (fun acc q => winsert acc (bareName q) (entryWidth q)) m) k
        = wlookup m k := by
  intro entries
  induction entries with
  | nil => intro m k _; rfl
  | cons p rest ih =>
    intro m k hne
    rw [List.foldl_cons]
    rw [ih _ k (fun q hq => hne q (List.mem_cons_of_mem p hq))]
    exact wlookup_winsert_other m (bareName p) (entryWidth p) k
      (fun hx => hne p (List.mem_cons_self p rest) hx.symm) |>.symm ▸ rfl

theorem wfold_lookup :
    ∀ (entries : List String) (m : List (String × String)) (e : String),
      e ∈ entries → (entries.map bareName).Nodup →
      wlookup (entries.foldl (fun acc q => winsert acc (bareName q) (entryWidth q)) m)
        (bareName e) = entryWidth e := by
  intro entries
  induction entries with
  | nil => intro m e h; exact absurd h (List.not_mem_nil e)
  | cons p rest ih =>
    intro m e hmem hnodup
    rw [List.map_cons, List.nodup_cons] at hnodup
    rw [List.foldl_cons]
    rcases List.mem_cons.mp hmem with rfl | hmem2
    · rw [wfold_lookup_preserve rest _ (bareName e)
        (fun q hq hx => hnodup.1 (hx ▸ List.mem_map_of_mem bareName hq))]
      exact wlookup_winsert_self m (bareName e) (entryWidth e)
    · exact ih _ e hmem2 hnodup.2

theorem ppwList_spec :
    ∀ (ports : List String) (st : List String × List (String × String)),
      (∀ e ∈ ports, wfEntry e = true) →
      ppwList ports st = (st.1 ++ ports.map bareName,
        ports.foldl (fun acc e => winsert acc (bareName e) (entryWidth e)) st.2) := by
  intro ports
  induction ports with
  | nil => intro st _; simp [ppwList]
  | cons p rest ih =>
    intro st hwf
    have hp := parsePortEntry_wf p (hwf p (List.mem_cons_self _ _))
    show List.foldl _ st (p :: rest) = _
    rw [List.foldl_cons]
    have hstep :
        (match parsePortEntry p.data with
          | some nw => (st.1 ++ [String.mk nw.1], winsert st.2 (String.mk nw.1) (String.mk nw.2))
          | none => (st.1 ++ [p], winsert st.2 p "")) =
        (st.1 ++ [bareName p], winsert st.2 (bareName p) (entryWidth p)) := by
      rw [hp]
    rw [hstep]
    have := ih (st.1 ++ [bareName p], winsert st.2 (bareName p) (entryWidth p))
      (fun e he => hwf e (List.mem_cons_of_mem p he))
    rw [show (ppwList rest (st.1 ++ [bareName p],
        winsert st.2 (bareName p) (entryWidth p))) = List.foldl _ _ rest from rfl] at this
    rw [this]
    simp [List.foldl_cons]

theorem bareName_bracketFree (e : String) : bracketFree (bareName e).data = true := by
  simp only [bareName, bracketFree]
  rw [List.all_eq_true]
  intro c hc
  have hw : isWordChar c = true := List.mem_takeWhile_imp hc
  simp only [decide_eq_true_eq]
  intro hcc
  subst hcc
  exact absurd hw (by decide)

/-- Claim C10: for an interface whose entries all have the `name` or
`name[range]` shape (with distinct names), the constructed `ModuleItem`
stores exactly the bare, bracket-free names in its input and output lists
— in interface order — and moves each range into the width map keyed by
the bare name.  All later connection matching and synthesis address ports
through these stored lists (`ModulePorts`), hence by bare names. -/
theorem C10_bare_names (rawIns rawOuts : List String)
    (hwf : ∀ e ∈ rawIns ++ rawOuts, wfEntry e = true)
    (hnodup : ((rawIns ++ rawOuts).map bareName).Nodup) :
    (parse_port_widths rawIns rawOuts).inputs = rawIns.map bareName ∧
    (parse_port_widths rawIns rawOuts).outputs = rawOuts.map bareName ∧
    (∀ e ∈ rawIns ++ rawOuts,
      wlookup (parse_port_widths rawIns rawOuts).widths (bareName e) = entryWidth e) ∧
    (∀ s ∈ (parse_port_widths rawIns rawOuts).inputs
        ++ (parse_port_widths rawIns rawOuts).outputs, bracketFree s.data = true) := by
  have hwfI : ∀ e ∈ rawIns, wfEntry e = true :=
    fun e he => hwf e (List.mem_append_left _ he)
  have hwfO : ∀ e ∈ rawOuts, wfEntry e = true :=
    fun e he => hwf e (List.mem_append_right _ he)
  have h1 := ppwList_spec rawIns ([], []) hwfI
  have h2 := ppwList_spec rawOuts
    ([], rawIns.foldl (fun acc e => winsert acc (bareName e) (entryWidth e)) []) hwfO
  have hpw : parse_port_widths rawIns rawOuts =
      ⟨rawIns.map bareName, rawOuts.map bareName,
        (rawIns ++ rawOuts).foldl
          (fun acc e => winsert acc (bareName e) (entryWidth e)) []⟩ := by
    unfold parse_port_widths
    rw [h1]
    dsimp only
    rw [h2]
    dsimp only
    rw [List.foldl_append]
    simp
  refine ⟨by rw [hpw], by rw [hpw], ?_, ?_⟩
  · intro e he
    rw [hpw]
    exact wfold_lookup (rawIns ++ rawOuts) [] e he hnodup
  · intro s hs
    rw [hpw] at hs
    simp only [List.mem_append, List.mem_map] at hs
    rcases hs with ⟨e, _, rfl⟩ | ⟨e, _, rfl⟩ <;> exact bareName_bracketFree e

theorem C10_bare_names_witness :
    (parse_port_widths ["a[3:0]", "b"] ["sum[4:0]"]).inputs
      = (["a[3:0]", "b"] : List String).map bareName ∧
    (parse_port_widths ["a[3:0]", "b"] ["sum[4:0]"]).outputs
      = (["sum[4:0]"] : List String).map bareName ∧
    (∀ e ∈ (["a[3:0]", "b"] : List String) ++ ["sum[4:0]"],
      wlookup (parse_port_widths ["a[3:0]", "b"] ["sum[4:0]"]).widths (bareName e)
        = entryWidth e) ∧
    (∀ s ∈ (parse_port_widths ["a[3:0]", "b"] ["sum[4:0]"]).inputs
        ++ (parse_port_widths ["a[3:0]", "b"] ["sum[4:0]"]).outputs,
      bracketFree s.data = true) :=
  C10_bare_names ["a[3:0]", "b"] ["sum[4:0]"] (by decide) (by decide)

theorem inboundCount_of_sublist {ws : List Wire} (mods : List (String × ModulePorts))
    (c : Canvas) (h : ws.Sublist c.wires) (m p : String) :
    inboundCount ⟨mods, ws⟩ m p ≤ inboundCount c m p :=
  ((h.filter _).length_le)

theorem filterLen_append_single (l : List α) (w0 : α) (f : α → Bool)
    (h1 : (l.filter f).length ≤ 1)
    (h2 : f w0 = true → l.filter f = []) :
    ((l ++ [w0]).filter f).length ≤ 1 := by
  rw [List.filter_append, List.length_append]
  by_cases hw : f w0 = true
  · rw [h2 hw] at h1 ⊢
    simp [List.filter_cons, hw]
  · simp only [List.filter_cons, hw, if_false, List.filter_nil, List.length_nil,
      Nat.add_zero]
    exact h1

theorem finishConnect_inbound_le (c : Canvas) (srcM srcP dstM dstP : String)
    (dstPorts : ModulePorts)
    (ih : ∀ m p, inboundCount c m p ≤ 1) (hin : dstP ∈ dstPorts.inputs) (m p : String) :
    inboundCount (finishConnect c srcM srcP dstM dstP dstPorts).1 m p ≤ 1 := by
  unfold finishConnect
  rw [if_pos hin]
  by_cases hany : c.wires.any (fun w => w.endModule == dstM && w.endPort == dstP)
  · rw [if_pos hany]; exact ih m p
  · rw [if_neg hany]
    simp only [inboundCount]
    apply filterLen_append_single
    · exact ih m p
    · intro hw
      have hm : dstM = m ∧ dstP = p := by
        simpa using hw
      rw [List.filter_eq_nil_iff]
      intro w hwmem
      have hall := (List.any_eq_false).mp (Bool.of_not_eq_true hany) w hwmem
      rw [← hm.1, ← hm.2]
      exact hall

/-- Claim C3: in every reachable canvas state, every port has at most one
inbound wire (in particular every input port of every instance), and this
is preserved by every mutating operation — adding an instance, connecting,
deleting an instance (with its cascade), deleting a wire. -/
theorem C3_single_driver_invariant (c : Canvas) (h : Reachable c) :
    ∀ m p : String, inboundCount c m p ≤ 1 := by
  induction h with
  | init => intro m p; simp [inboundCount]
  | add c t ri ro _ ih => exact ih
  | conn c sm sp em ep _ ih =>
    intro m p
    unfold connectOp
    split
    · exact ih m p
    · split
      · split
        · rename_i hdir
          exact finishConnect_inbound_le c sm sp em ep _ ih hdir.2 m p
        · split
          · rename_i hdir
            exact finishConnect_inbound_le c em ep sm sp _ ih hdir.1 m p
          · exact ih m p
      · exact ih m p
  | delMod c n _ ih =>
    intro m p
    unfold removeInstance
    split
    · exact le_trans
        (inboundCount_of_sublist _ c (List.filter_sublist _) m p) (ih m p)
    · exact ih m p
  | delWire c w _ ih =>
    intro m p
    exact le_trans
      (inboundCount_of_sublist c.modules c (List.erase_sublist w c.wires) m p) (ih m p)

theorem C3_single_driver_invariant_witness :
    inboundCount cReach "adder_1" "a" ≤ 1 :=
  C3_single_driver_invariant cReach
    (Reachable.conn _ "adder" "sum" "adder_1" "a"
      (Reachable.add _ "adder" ["a[3:0]", "b[3:0]"] ["sum[4:0]"]
        (Reachable.add _ "adder" ["a[3:0]", "b[3:0]"] ["sum[4:0]"] Reachable.init)))
    "adder_1" "a"

/-! ## Claim C4 -/

/-- Claim C4: a direction-valid connection attempt onto an input that
already has an inbound wire is rejected as already driven; the canvas —
in particular the wire list with its pre-existing wire — is returned
unchanged, and no wire is appended. -/
theorem C4_already_driven_rejected (c : Canvas) (sm sp em ep : String)
    (sMod eMod : ModulePorts)
    (hne : sm ≠ em)
    (hs : lookupMod c sm = some sMod)
    (he : lookupMod c em = some eMod)
    (hsp : sp ∈ sMod.outputs) (hep : ep ∈ eMod.inputs)
    (hdriven : c.wires.any (fun w => w.endModule == em && w.endPort == ep) = true) :
    connectOp c sm sp em ep = (c, some ConnectError.portAlreadyDriven) := by
  simp only [connectOp, hs, he, if_neg hne]
  rw [if_pos ⟨hsp, hep⟩]
  simp only [finishConnect, if_pos hep, hdriven, if_true]

theorem C4_already_driven_rejected_witness :
    connectOp c4canvas "s2" "o2" "d" "i" = (c4canvas, some ConnectError.portAlreadyDriven) :=
  C4_already_driven_rejected c4canvas "s2" "o2" "d" "i"
    ⟨[], ["o2"], []⟩ ⟨["i"], [], []⟩
    (by decide) (by decide) (by decide) (by decide) (by decide) (by decide)

/-! ## Claim C5

The naming loop of `add_module_to_canvas` always terminates on the first
unused candidate.  To show the fuel bound of `freshFrom` is sufficient we
need the decimal rendering `Nat.repr` to be injective, which we derive
from a Horner-evaluation correctness proof for `Nat.toDigitsCore`. -/

theorem digitList_ne_nil (n : Nat) : digitList n ≠ [] := by
  rw [digitList]
  split <;> simp

theorem toDigitsCore_eq_digitList :
    ∀ (fuel n : Nat) (ds : List Char), n < 10 ^ fuel → 0 < fuel →
      Nat.toDigitsCore 10 fuel n ds = digitList n ++ ds := by
  intro fuel
  induction fuel with
  | zero => intro n ds _ h0; omega
  | succ f ih =>
    intro n ds hlt _
    by_cases hz : n / 10 = 0
    · have hn : n < 10 := by omega
      simp only [Nat.toDigitsCore, hz, if_true]
      rw [digitList, if_pos hn, Nat.mod_eq_of_lt hn]
      rfl
    · have hn : ¬ n < 10 := by omega
      have hf : 0 < f := by
        by_contra h0
        have : f = 0 := by omega
        subst this
        simp [pow_succ, pow_zero] at hlt
        omega
      have hdiv : n / 10 < 10 ^ f := by
        rw [Nat.div_lt_iff_lt_mul (by omega)]
        calc n < 10 ^ (f + 1) := hlt
        _ = 10 ^ f * 10 := by rw [pow_succ]
      simp only [Nat.toDigitsCore, hz, if_false]
      rw [ih (n / 10) (Nat.digitChar (n % 10) :: ds) hdiv hf]
      conv_rhs => rw [digitList, if_neg hn]
      rw [List.append_assoc]
      rfl

theorem toDigits_eq_digitList (n : Nat) : Nat.toDigits 10 n = digitList n := by
  have h := toDigitsCore_eq_digitList (n + 1) n [] ?_ (Nat.succ_pos n)
  · simpa [Nat.toDigits] using h
  · calc n < 10 ^ n := Nat.lt_pow_self (by omega) n
    _ ≤ 10 ^ (n + 1) := Nat.pow_le_pow_right (by omega) (Nat.le_succ n)

theorem digitVal_digitChar : ∀ d < 10, digitVal (Nat.digitChar d) = d := by decide

theorem foldl_digitList (n : Nat) :
    ∀ a : Nat, (digitList n).foldl (fun x c => 10 * x + digitVal c) a
      = a * 10 ^ (digitList n).length + n := by
  induction n using Nat.strong_induction_on with
  | _ n ih =>
    intro a
    by_cases hn : n < 10
    · rw [digitList, if_pos hn]
      simp [digitVal_digitChar n hn]
      omega
    · rw [digitList, if_neg hn]
      rw [List.foldl_append]
      rw [ih (n / 10) (Nat.div_lt_self (by omega) (by omega)) a]
      simp only [List.foldl_cons, List.foldl_nil, List.length_append,
        List.length_singleton]
      rw [digitVal_digitChar (n % 10) (Nat.mod_lt n (by omega)), pow_succ]
      calc 10 * (a * 10 ^ (digitList (n / 10)).length + n / 10) + n % 10
          = a * (10 ^ (digitList (n / 10)).length * 10) + (10 * (n / 10) + n % 10) := by
            ring
        _ = a * (10 ^ (digitList (n / 10)).length * 10) + n := by
            rw [Nat.div_add_mod]

theorem digitList_inj {m n : Nat} (h : digitList m = digitList n) : m = n := by
  have hm := foldl_digitList m 0
  have hn := foldl_digitList n 0
  rw [h] at hm
  omega

theorem repr_data_eq (n : Nat) : (Nat.repr n).data = digitList n := by
  rw [Nat.repr, toDigits_eq_digitList]
  rfl

theorem repr_inj {m n : Nat} (h : Nat.repr m = Nat.repr n) : m = n :=
  digitList_inj (by rw [← repr_data_eq, ← repr_data_eq, h])

theorem candidate_zero (t : String) : candidate t 0 = t := rfl

theorem candidate_succ (t : String) (k : Nat) :
    candidate t (k + 1) = t ++ "_" ++ Nat.repr (k + 1) := rfl

theorem repr_length_pos (n : Nat) : 0 < (Nat.repr n).length := by
  show 0 < (Nat.repr n).data.length
  rw [repr_data_eq]
  exact List.length_pos.mpr (digitList_ne_nil n)

theorem candidate_injective (t : String) : Function.Injective (candidate t) := by
  intro j k h
  match j, k with
  | 0, 0 => rfl
  | 0, k + 1 =>
    exfalso
    have hlen := congrArg String.length h
    rw [candidate_zero, candidate_succ, String.length_append, String.length_append] at hlen
    have hr := repr_length_pos (k + 1)
    have hu : "_".length = 1 := rfl
    omega
  | j + 1, 0 =>
    exfalso
    have hlen := congrArg String.length h
    rw [candidate_zero, candidate_succ, String.length_append, String.length_append] at hlen
    have hr := repr_length_pos (j + 1)
    have hu : "_".length = 1 := rfl
    omega
  | j + 1, k + 1 =>
    have hd := congrArg String.data h
    rw [candidate_succ, candidate_succ, String.data_append, String.data_append,
      String.data_append, String.data_append, List.append_assoc, List.append_assoc] at hd
    have h1 := List.append_cancel_left hd
    have h2 := List.append_cancel_left h1
    have h3 : digitList (j + 1) = digitList (k + 1) := by
      rw [← repr_data_eq, ← repr_data_eq]; exact h2
    rw [digitList_inj h3]

/-- Pigeonhole: among the first `existing.length + 1` candidates at least
one is unused, so the naming loop always succeeds within the fuel given
to it. -/
theorem exists_unused_candidate (t : String) (ex : List String) :
    ∃ j, j < ex.length + 1 ∧ candidate t j ∉ ex := by
  by_contra hcon
  push_neg at hcon
  have hsub : (Finset.range (ex.length + 1)).image (candidate t) ⊆ ex.toFinset := by
    intro x hx
    rw [Finset.mem_image] at hx
    obtain ⟨j, hj, rfl⟩ := hx
    exact List.mem_toFinset.mpr (hcon j (Finset.mem_range.mp hj))
  have hcard := Finset.card_le_card hsub
  rw [Finset.card_image_of_injective _ (candidate_injective t), Finset.card_range] at hcard
  have := ex.toFinset_card_le
  omega

theorem freshFrom_spec (t : String) (ex : List String) :
    ∀ fuel k, (∃ j, j < fuel ∧ candidate t (k + j) ∉ ex) →
      freshFrom t ex fuel k ∉ ex ∧
      ∃ j, freshFrom t ex fuel k = candidate t (k + j) ∧
        ∀ i, i < j → candidate t (k + i) ∈ ex := by
  intro fuel
  induction fuel with
  | zero =>
    intro k h
    obtain ⟨j, hj, _⟩ := h
    omega
  | succ f ih =>
    intro k h
    obtain ⟨j, hj, hout⟩ := h
    by_cases hk : candidate t k ∈ ex
    · have hj0 : j ≠ 0 := by
        rintro rfl
        rw [Nat.add_zero] at hout
        exact hout hk
      obtain ⟨j1, rfl⟩ := Nat.exists_eq_succ_of_ne_zero hj0
      have hstep : candidate t (k + 1 + j1) ∉ ex := by
        rw [show k + 1 + j1 = k + (j1 + 1) by omega]
        exact hout
      have hrec := ih (k + 1) ⟨j1, by omega, hstep⟩
      simp only [freshFrom, if_pos hk]
      refine ⟨hrec.1, ?_⟩
      obtain ⟨j2, heq, hall⟩ := hrec.2
      refine ⟨j2 + 1, ?_, ?_⟩
      · rw [heq]
        congr 1
        omega
      · intro i hi
        match i with
        | 0 => rw [Nat.add_zero]; exact hk
        | i1 + 1 =>
          rw [show k + (i1 + 1) = k + 1 + i1 by omega]
          exact hall i1 (by omega)
    · simp only [freshFrom, if_neg hk]
      exact ⟨hk, 0, by rw [Nat.add_zero], fun i hi => by omega⟩

/-- Claim C5: the naming loop of `add_module_to_canvas` always succeeds,
returning the first unused name in the sequence
`typeName, typeName_1, typeName_2, ...`, checked against all current
instance names of the canvas regardless of type — and `add_module_to_canvas`
installs exactly that name. -/
theorem C5_fresh_instance_name (t : String) (ex : List String) :
    freshInstanceName t ex ∉ ex ∧
    (∃ j, freshInstanceName t ex = candidate t j ∧
      ∀ i, i < j → candidate t i ∈ ex) ∧
    (∀ (c : Canvas) (ri ro : List String),
      (add_module_to_canvas c t ri ro).modules
        = c.modules ++
          [(freshInstanceName t (c.modules.map (fun e => e.1)), parse_port_widths ri ro)]) := by
  obtain ⟨j, hj, hout⟩ := exists_unused_candidate t ex
  have h := freshFrom_spec t ex (ex.length + 1) 0
    ⟨j, hj, by rw [Nat.zero_add]; exact hout⟩
  refine ⟨h.1, ?_, fun c ri ro => rfl⟩
  obtain ⟨j2, heq, hall⟩ := h.2
  exact ⟨j2, by rw [← Nat.zero_add j2]; exact heq,
    fun i hi => by rw [← Nat.zero_add i]; exact hall i hi⟩

/-! ## Claim C6, amended part

The library type name is recovered from every instance name produced by
the naming loop, whenever the type name does not itself end in an
underscore-digits segment.  This needs: the underscore split distributes
over an underscore boundary, a digit-only segment has no underscore, and
joining undoes splitting. -/

theorem splitOnUS_ne_nil (l : List Char) : splitOnUS l ≠ [] := by
  cases l with
  | nil => simp [splitOnUS]
  | cons c rest =>
    by_cases hc : c = '_'
    · simp [splitOnUS, hc]
    · simp only [splitOnUS, if_neg hc]
      cases h : splitOnUS rest <;> simp

theorem splitOnUS_append_us (a b : List Char) :
    splitOnUS (a ++ '_' :: b) = splitOnUS a ++ splitOnUS b := by
  induction a with
  | nil => simp [splitOnUS]
  | cons c a2 ih =>
    by_cases hc : c = '_'
    · subst hc
      simp [splitOnUS, ih]
    · rw [List.cons_append]
      simp only [splitOnUS, if_neg hc]
      rw [ih]
      cases h : splitOnUS a2 with
      | nil => exact absurd h (splitOnUS_ne_nil a2)
      | cons h0 t0 => simp

theorem splitOnUS_no_us (l : List Char) (h : '_' ∉ l) : splitOnUS l = [l] := by
  induction l with
  | nil => rfl
  | cons c rest ih =>
    have hc : ¬ c = '_' := fun hx => h (hx ▸ List.mem_cons_self c rest)
    simp only [splitOnUS, if_neg hc]
    rw [ih (fun hx => h (List.mem_cons_of_mem c hx))]

theorem joinUS_cons (c : Char) (h : List Char) (t : List (List Char)) :
    joinUS ((c :: h) :: t) = c :: joinUS (h :: t) := by
  cases t with
  | nil => rfl
  | cons y t2 => rfl

theorem joinUS_splitOnUS (l : List Char) : joinUS (splitOnUS l) = l := by
  induction l with
  | nil => rfl
  | cons c rest ih =>
    by_cases hc : c = '_'
    · subst hc
      simp only [splitOnUS, if_pos rfl]
      cases h : splitOnUS rest with
      | nil => exact absurd h (splitOnUS_ne_nil rest)
      | cons h0 t0 =>
        show '_' :: joinUS (h0 :: t0) = '_' :: rest
        rw [← h, ih]
    · simp only [splitOnUS, if_neg hc]
      cases h : splitOnUS rest with
      | nil => exact absurd h (splitOnUS_ne_nil rest)
      | cons h0 t0 =>
        rw [joinUS_cons, ← h, ih]

theorem digitList_all_digits (n : Nat) : ∀ c ∈ digitList n, isDigitChar c = true := by
  induction n using Nat.strong_induction_on with
  | _ n ih =>
    intro c hc
    have hdec : ∀ d < 10, isDigitChar (Nat.digitChar d) = true := by decide
    by_cases hn : n < 10
    · rw [digitList, if_pos hn] at hc
      rcases List.mem_singleton.mp hc with rfl
      exact hdec n hn
    · rw [digitList, if_neg hn] at hc
      rcases List.mem_append.mp hc with h | h
      · exact ih (n / 10) (Nat.div_lt_self (by omega) (by omega)) c h
      · rcases List.mem_singleton.mp h with rfl
        exact hdec (n % 10) (Nat.mod_lt n (by omega))

theorem us_not_mem_digitList (n : Nat) : '_' ∉ digitList n := by
  intro h
  exact absurd (digitList_all_digits n '_' h) (by decide)

theorem strIsDigits_digitList (n : Nat) : strIsDigits (digitList n) = true := by
  simp only [strIsDigits, Bool.and_eq_true, Bool.not_eq_true']
  constructor
  · rw [List.isEmpty_eq_false_iff_exists_mem]
    cases h : digitList n with
    | nil => exact absurd h (digitList_ne_nil n)
    | cons c t => exact ⟨c, List.mem_cons_self c t⟩
  · rw [List.all_eq_true]
    exact digitList_all_digits n

/-- The stripping direction of `get_module_type`: a name formed as some
string plus an underscore and a decimal numeral always has exactly that
numeral segment removed. -/
theorem get_module_type_strip (T : String) (k : Nat) :
    get_module_type (T ++ "_" ++ Nat.repr k) = T := by
  have hdata : (T ++ "_" ++ Nat.repr k).data = T.data ++ '_' :: digitList k := by
    rw [String.data_append, String.data_append, repr_data_eq, List.append_assoc]
    rfl
  simp only [get_module_type, hdata, splitOnUS_append_us,
    splitOnUS_no_us (digitList k) (us_not_mem_digitList k)]
  have hcond : ('_' ∈ T.data ++ '_' :: digitList k) ∧
      strIsDigits ((splitOnUS T.data ++ [digitList k]).getLastD []) = true := by
    constructor
    · exact List.mem_append_right _ (List.mem_cons_self _ _)
    · rw [List.getLastD_concat]
      exact strIsDigits_digitList k
  rw [if_pos hcond, List.dropLast_concat, joinUS_splitOnUS]

/-- Claim C6, amended: every emitted instantiation block opens with
`get_module_type(instanceName)` followed by the instance name — the
instance name with one trailing underscore-digits segment stripped, not a
library lookup; and for a type name that does not itself end in such a
segment, every instance name the naming loop can produce for it
(`candidate T k`, i.e. `T` itself or `T_k`) is mapped back to exactly the
type name. -/
theorem C6_amended_type_heuristic :
    (∀ (c : Canvas) (topName : String) (e : String × ModulePorts),
      e ∈ c.modules → instHeader e.1 ∈ svCode c topName) ∧
    (∀ (T : String) (k : Nat),
      ¬ (('_' ∈ T.data) ∧ strIsDigits ((splitOnUS T.data).getLastD [])) →
      get_module_type (candidate T k) = T) := by
  constructor
  · intro c topName e he
    have hb : instHeader e.1 ∈ instBlock c e := by
      simp [instBlock]
    have hflat : instHeader e.1 ∈ (c.modules.map (instBlock c)).flatten :=
      List.mem_flatten.mpr ⟨instBlock c e, List.mem_map_of_mem _ he, hb⟩
    simp only [svCode, List.mem_append]
    tauto
  · intro T k h
    match k with
    | 0 =>
      rw [candidate_zero]
      simp only [get_module_type]
      rw [if_neg h]
    | k + 1 =>
      rw [candidate_succ]
      exact get_module_type_strip T (k + 1)

theorem C6_amended_type_heuristic_witness :
    (("foo_1", parse_port_widths [] ["y"]) ∈ c6canvas.modules ∧
      instHeader "foo_1" ∈ svCode c6canvas "top") ∧
    (¬ (('_' ∈ "bar".data) ∧ strIsDigits ((splitOnUS "bar".data).getLastD [])) ∧
      get_module_type (candidate "bar" 0) = "bar" ∧
      get_module_type (candidate "bar" 2) = "bar") :=
  ⟨⟨by decide,
    C6_amended_type_heuristic.1 c6canvas "top" ("foo_1", parse_port_widths [] ["y"])
      (by decide)⟩,
   ⟨by decide, C6_amended_type_heuristic.2 "bar" 0 (by decide),
    C6_amended_type_heuristic.2 "bar" 2 (by decide)⟩⟩
